import Mathlib

/-!
Shallow embedding of the pinchord lookup worker (`src/chord-worker.ts`):
component-table normalization, chord enumeration, prefix matching,
memoized spelling search, and the job loop that batches results.

Strings are modelled as `List Char`; JS `Record` tables as association
lists in `Object.entries` order; generators as the full (finite) list of
their yields; the recursive generator is embedded with an explicit fuel
argument (structurally recursive, hence executable), together with a
proof that fuel `target.length + 1` is enough.
-/

namespace Pinchord

/-- Strings, modelled as lists of characters. -/
abbrev Str := List Char

/-- One component-table entry: (chord identifier, produced fragment). -/
abbrev Entry := Str × Str

/-- The four raw identifiers of one chord (TS type `Strokes`). -/
structure Strokes where
  i : Str
  v : Str
  f : Str
  s : Str
deriving DecidableEq, Repr

/-- TS `ChordData`: the five optional raw tables of one version file. -/
structure ChordData where
  initials? : Option (List Entry)
  vowels?   : Option (List Entry)
  finals?   : Option (List Entry)
  suffix?   : Option (List Entry)
  suffixes? : Option (List Entry)

/-- The left brace character. -/
def lbrace : Char := Char.ofNat 123

/-- The right brace character. -/
def rbrace : Char := Char.ofNat 125

/-- TS `isLiteral`: empty strings are literal; otherwise the string must
contain none of the templating markers. -/
def isLiteral (s : Str) : Bool :=
  if s.isEmpty then true
  else !(s.contains lbrace || s.contains rbrace || s.contains '|')

/-- TS `literalPart`: a literal fragment, or the empty string. -/
def literalPart (s : Str) : Str :=
  if isLiteral s then s else []

/-- The four normalized candidate lists (`buildComponents` output). -/
structure Components where
  initials : List Entry
  vowels   : List Entry
  finals   : List Entry
  suffixes : List Entry

/-- TS `withEmpty` (inside `buildComponents`): the entries of a table,
with `("", "")` prepended when no empty-identifier entry exists. -/
def withEmpty (m : Option (List Entry)) : List Entry :=
  let items := m.getD []
  if items.any (fun kv => kv.1 = []) then items else ([], []) :: items

/-- The suffix-table selection in TS `buildComponents`:
`data.suffix && Object.keys(data.suffix).length ? data.suffix : data.suffixes`. -/
def suffixSource (data : ChordData) : Option (List Entry) :=
  match data.suffix? with
  | some m => if m.isEmpty then data.suffixes? else some m
  | none => data.suffixes?

/-- TS `buildComponents`: normalize the four tables. -/
def buildComponents (data : ChordData) : Components :=
  { initials := withEmpty data.initials?
    vowels := withEmpty data.vowels?
    finals := withEmpty data.finals?
    suffixes :=
      let suffixes0 := (suffixSource data).getD []
      if suffixes0.any (fun kv => kv.1 = []) then suffixes0
      else ([], []) :: suffixes0 }

/-- TS `allChordOutputs`: nested iteration over the four candidate lists,
yielding each chord's concatenated literal output with its strokes. -/
def allChordOutputs (c : Components) : List (Str × Strokes) :=
  c.initials.flatMap fun iE =>
    c.vowels.flatMap fun vE =>
      c.finals.flatMap fun fE =>
        c.suffixes.map fun sE =>
          (literalPart iE.2 ++ literalPart vE.2 ++ literalPart fE.2 ++
              literalPart sE.2,
            ⟨iE.1, vE.1, fE.1, sE.1⟩)

/-- `s.startsWith(p)` on character lists. -/
def startsWithStr (s p : Str) : Bool :=
  match s, p with
  | _, [] => true
  | [], _ :: _ => false
  | c :: s2, d :: p2 => c = d && startsWithStr s2 p2

/-- Stable insertion step for the descending-output-length sort
(models JS stable `Array.prototype.sort` with comparator
`(a, b) => b.length - a.length`). -/
def insertDesc (x : Str × Strokes) : List (Str × Strokes) → List (Str × Strokes)
  | [] => [x]
  | y :: ys =>
      if x.1.length ≥ y.1.length then x :: y :: ys else y :: insertDesc x ys

/-- Stable sort by output length, descending. -/
def sortDesc : List (Str × Strokes) → List (Str × Strokes)
  | [] => []
  | x :: xs => insertDesc x (sortDesc xs)

/-- TS `getPrefixChords`: the enumerated chords whose output is a
non-empty prefix of `target`, sorted longest-output-first (stable). -/
def getPrefixChords (target : Str) (c : Components) : List (Str × Strokes) :=
  sortDesc ((allChordOutputs c).filter
    (fun x => !x.1.isEmpty && startsWithStr target x.1))

/-- A spelling: the ordered (output, strokes) pairs of one decomposition. -/
abbrev Spelling := List (Str × Strokes)

/-- The memo: association list from suffix to its full spelling list. -/
abbrev Memo := List (Str × List Spelling)

/-- Lookup in the memo (JS `target in memo` / `memo[target]`). -/
def memoLookup (m : Memo) (k : Str) : Option (List Spelling) :=
  match m with
  | [] => none
  | kv :: rest => if kv.1 = k then some kv.2 else memoLookup rest k

/-- Update-or-append in the memo (JS `memo[target] = ways`). -/
def memoInsert (m : Memo) (k : Str) (v : List Spelling) : Memo :=
  match m with
  | [] => [(k, v)]
  | kv :: rest =>
      if kv.1 = k then (k, v) :: rest else kv :: memoInsert rest k v

/-- The for-of loop body of TS `findSpellingsGenerator`: walk the prefix
chords in order, recursing (via `f`) on the remainder after each output,
prepending the chord to every recursive spelling, threading the memo and
accumulating the yielded ways in order. -/
def goChords (target : Str) (f : Str → Memo → List Spelling × Memo) :
    List (Str × Strokes) → Memo → List Spelling × Memo
  | [], memo => ([], memo)
  | ch :: chs, memo =>
      let rest := target.drop ch.1.length
      let r := f rest memo
      let here := r.1.map (fun w => ch :: w)
      let r2 := goChords target f chs r.2
      (here ++ r2.1, r2.2)

/-- TS `findSpellingsGenerator`, with an explicit fuel bound on the
recursion depth; `findSpellings` below applies it with enough fuel, and
`findSpellingsF_fuel` proves the bound is enough.  Returns the full list
of yielded spellings in yield order, together with the final memo. -/
def findSpellingsF : Nat → Str → Components → Memo → List Spelling × Memo
  | 0, _, _, memo => ([], memo)
  | fuel + 1, target, c, memo =>
    if target = [] then ([[]], memoInsert memo [] [[]])
    else
      match memoLookup memo target with
      | some ways => (ways, memo)
      | none =>
          let r := goChords target (fun t m => findSpellingsF fuel t c m)
            (getPrefixChords target c) memo
          (r.1, memoInsert r.2 target r.1)

/-- The spelling search: `findSpellingsGenerator(target, components, memo)`
run to exhaustion. -/
def findSpellings (target : Str) (c : Components) (memo : Memo) :
    List Spelling × Memo :=
  findSpellingsF (target.length + 1) target c memo

/-- The concatenation of a spelling's outputs. -/
def concatOutputs (w : Spelling) : Str :=
  (w.map (fun p => p.1)).flatten

/-- TS `chordRepr`: display form of one stroke tuple. -/
def chordRepr (st : Strokes) : Str :=
  let fDisplay :=
    if !st.f.isEmpty && startsWithStr st.f ['-'] && st.i.isEmpty && st.v.isEmpty
    then st.f
    else if startsWithStr st.f ['-'] then st.f.drop 1
    else st.f
  let raw := st.i ++ st.v ++ fDisplay ++ st.s
  let raw2 :=
    if raw.isEmpty then [Char.ofNat 0xE2, Char.ofNat 0x2C6, Char.ofNat 0x2026]
    else raw
  raw2.map (fun ch => if ch = '|' then '&' else ch)

/-- TS `YIELD_EVERY`: batch size of the job loop. -/
def YIELD_EVERY : Nat := 5

/-- Messages the worker posts (`chunk`, `resultDone`, `error`). -/
inductive Msg where
  | chunk (spellings : List Str) (ways : List (List Strokes)) : Msg
  | resultDoneMsg (total : Nat) : Msg
  | errorMsg : Msg
deriving DecidableEq, Repr

/-- `maxEntries !== undefined && total >= maxEntries`. -/
def capReached (maxEntries : Option Nat) (total : Nat) : Bool :=
  match maxEntries with
  | some k => total ≥ k
  | none => false

/-- The inner `for (let i = 0; i < YIELD_EVERY; i++)` loop of `runJob`:
pull up to `n` spellings from the remaining generator output, stopping
early at the cap or at generator exhaustion.  Returns (batch, remaining,
new total, generatorDone). -/
def takeBatch : Nat → List Spelling → Nat → Option Nat →
    List Spelling × List Spelling × Nat × Bool
  | 0, rem, total, _ => ([], rem, total, false)
  | n + 1, rem, total, maxEntries =>
      if capReached maxEntries total then ([], rem, total, false)
      else
        match rem with
        | [] => ([], [], total, true)
        | w :: ws =>
            let r := takeBatch n ws (total + 1) maxEntries
            (w :: r.1, r.2.1, r.2.2.1, r.2.2.2)

/-- The display string of one spelling: chord representations joined by
`" / "` (TS `way.map(([, s]) => chordRepr(s)).join(" / ")`). -/
def displayOf (w : Spelling) : Str :=
  (List.intersperse [' ', '/', ' '] (w.map (fun p => chordRepr p.2))).flatten

/-- The chunk message `runJob` posts for one spelling. -/
def chunkOf (w : Spelling) : Msg :=
  Msg.chunk [displayOf w] [w.map (fun p => p.2)]

/-- The `while (true)` loop of `runJob`, for a job that is never
superseded: emit each batch as chunk messages, then either post the
terminal `resultDone` or loop.  `fuel` bounds the number of iterations;
`remaining.length + 1` is always enough (`runLoop_fuel`). -/
def runLoop : Nat → List Spelling → Nat → Option Nat → List Msg
  | 0, _, _, _ => []
  | fuel + 1, rem, total, maxEntries =>
      let r := takeBatch YIELD_EVERY rem total maxEntries
      let msgs := r.1.map chunkOf
      if r.2.2.2 || capReached maxEntries r.2.2.1 then
        msgs ++ [Msg.resultDoneMsg r.2.2.1]
      else
        msgs ++ runLoop fuel r.2.1 r.2.2.1 maxEntries

/-- TS `runJob` for a job that stays current throughout: the full message
sequence it posts. -/
def runJobMsgs (data : ChordData) (target : Str) (maxEntries : Option Nat) :
    List Msg :=
  let components := buildComponents data
  let spellings := (findSpellings target components []).1
  runLoop (spellings.length + 1) spellings 0 maxEntries

/-- The totals of the `resultDone` messages in a message list. -/
def doneTotals (msgs : List Msg) : List Nat :=
  msgs.filterMap fun m =>
    match m with
    | Msg.resultDoneMsg t => some t
    | _ => none

/-- The `runJob` loop under possible supersession.  The worker is
single-threaded: `currentJobId` can change only while the job is
suspended on its zero-delay tick, so the job's view of "am I current"
is a function `isCurrent` of the number of ticks elapsed.  Every posted
message is tagged with the tick at which it was posted; each chunk post
and the terminal post are guarded by `isCurrent` at the posting tick
(the `currentJobId === id` guards), and after each tick the loop stops
when the id is no longer current (the batch-boundary check). -/
def runLoopSup : Nat → (Nat → Bool) → Nat → List Spelling → Nat →
    Option Nat → List (Nat × Msg)
  | 0, _, _, _, _, _ => []
  | fuel + 1, isCurrent, tick, rem, total, maxEntries =>
      let r := takeBatch YIELD_EVERY rem total maxEntries
      let msgs :=
        if isCurrent tick then (r.1.map chunkOf).map (fun m => (tick, m))
        else []
      if r.2.2.2 || capReached maxEntries r.2.2.1 then
        msgs ++
          (if isCurrent tick then [(tick, Msg.resultDoneMsg r.2.2.1)] else [])
      else
        if isCurrent (tick + 1) then
          msgs ++ runLoopSup fuel isCurrent (tick + 1) r.2.1 r.2.2.1 maxEntries
        else msgs

/-- A memo is sound when every stored spelling concatenates to its key. -/
def GoodMemo (m : Memo) : Prop :=
  ∀ k v, memoLookup m k = some v → ∀ w ∈ v, concatOutputs w = k

/-- Modelled from the spec (§4.1/§3): normalization of one table, "the
ordered entries of the corresponding input mapping, with `("", "")`
prepended if no entry with empty identifier exists". -/
def normalizeSpec (entries : List Entry) : List Entry :=
  if entries.any (fun kv => kv.1 = []) then entries else ([], []) :: entries

/-- Modelled from the spec (§4.4 display derivation): strip a leading
`'-'` marker from an identifier, if present. -/
def stripLeadMarker (f : Str) : Str :=
  match f with
  | c :: rest => if c = '-' then rest else f
  | [] => f

/-- Modelled from the spec (§4.4 display derivation): concatenate the
four identifiers, stripping the final identifier's leading marker
unless the chord has no initial and no vowel identifier; substitute the
reserved separator with a display-safe character; render an entirely
empty chord as the standalone placeholder symbol. -/
def chordReprSpec (st : Strokes) : Str :=
  let fD := if st.i.isEmpty && st.v.isEmpty then st.f else stripLeadMarker st.f
  let raw := st.i ++ st.v ++ fD ++ st.s
  let raw2 :=
    if raw.isEmpty then [Char.ofNat 0xE2, Char.ofNat 0x2C6, Char.ofNat 0x2026]
    else raw
  raw2.map (fun ch => if ch = '|' then '&' else ch)

/-- The spec's worked example: `initials={"T":"t"}`, `vowels={"A":"a"}`,
`finals={}`, `suffixes={}`. -/
def exTAData : ChordData :=
  { initials? := some [(['T'], ['t'])]
    vowels? := some [(['A'], ['a'])]
    finals? := some []
    suffix? := none
    suffixes? := some [] }

/-- The normalized component lists of the worked example. -/
def exTAComponents : Components := buildComponents exTAData

/-- A table whose empty identifier maps to a non-empty fragment. -/
def emptyKeyData : ChordData :=
  { initials? := some [([], ['x'])]
    vowels? := none
    finals? := none
    suffix? := none
    suffixes? := none }

/-! ### Basic lemmas -/

lemma startsWithStr_iff (s p : Str) : startsWithStr s p = true ↔ p <+: s := by
  induction s generalizing p with
  | nil =>
      cases p with
      | nil => simp [startsWithStr]
      | cons d p2 => simp [startsWithStr]
  | cons c s2 ih =>
      cases p with
      | nil => simp [startsWithStr]
      | cons d p2 =>
          simp only [startsWithStr, Bool.and_eq_true, decide_eq_true_eq, ih,
            List.cons_prefix_cons]
          exact ⟨fun h => ⟨h.1.symm, h.2⟩, fun h => ⟨h.1.symm, h.2⟩⟩

lemma prefix_append_drop {p s : Str} (h : p <+: s) :
    p ++ s.drop p.length = s := by
  obtain ⟨t, rfl⟩ := h
  simp

lemma drop_length_lt {out t : Str} (hne : out ≠ []) (hpre : out <+: t) :
    (t.drop out.length).length < t.length := by
  have h1 : out.length ≤ t.length := hpre.length_le
  have h2 : 0 < out.length := List.length_pos.mpr hne
  simp only [List.length_drop]
  omega

lemma memoLookup_memoInsert (m : Memo) (k k2 : Str) (v : List Spelling) :
    memoLookup (memoInsert m k v) k2 =
      if k = k2 then some v else memoLookup m k2 := by
  induction m with
  | nil => simp [memoInsert, memoLookup]
  | cons kv rest ih =>
      simp only [memoInsert]
      by_cases h1 : kv.1 = k
      · rw [if_pos h1]
        by_cases h2 : k = k2
        · simp [memoLookup, h2]
        · have h3 : ¬ kv.1 = k2 := by rw [h1]; exact h2
          simp [memoLookup, h2, h3]
      · rw [if_neg h1]
        by_cases h3 : kv.1 = k2
        · have h2 : ¬ k = k2 := by
            intro h
            exact h1 (by rw [h]; exact h3)
          simp [memoLookup, h3, h2]
        · simp [memoLookup, h3, ih]

lemma memoInsert_self {m : Memo} {k : Str} {v : List Spelling}
    (h : memoLookup m k = some v) : memoInsert m k v = m := by
  induction m with
  | nil => simp [memoLookup] at h
  | cons kv rest ih =>
      by_cases h1 : kv.1 = k
      · simp only [memoLookup, if_pos h1, Option.some.injEq] at h
        simp [memoInsert, if_pos h1, ← h, ← h1]
      · simp only [memoLookup, if_neg h1] at h
        simp only [memoInsert, if_neg h1, ih h]

lemma goodMemo_nil : GoodMemo [] := by
  intro k v h
  simp [memoLookup] at h

lemma goodMemo_insert {m : Memo} {k : Str} {v : List Spelling}
    (hm : GoodMemo m) (hv : ∀ w ∈ v, concatOutputs w = k) :
    GoodMemo (memoInsert m k v) := by
  intro k2 v2 h
  rw [memoLookup_memoInsert] at h
  by_cases hk : k = k2
  · simp [hk] at h
    subst hk
    subst h
    exact hv
  · simp [hk] at h
    exact hm k2 v2 h

/-! ### The stable descending sort of `getPrefixChords` -/

lemma insertDesc_perm (x : Str × Strokes) (l : List (Str × Strokes)) :
    List.Perm (insertDesc x l) (x :: l) := by
  induction l with
  | nil => simp [insertDesc]
  | cons y ys ih =>
      by_cases h : x.1.length ≥ y.1.length
      · simp [insertDesc, h]
      · simp only [insertDesc, if_neg h]
        exact (ih.cons y).trans (List.Perm.swap x y ys)

lemma sortDesc_perm (l : List (Str × Strokes)) : List.Perm (sortDesc l) l := by
  induction l with
  | nil => simp [sortDesc]
  | cons x xs ih =>
      exact (insertDesc_perm x (sortDesc xs)).trans (ih.cons x)

lemma mem_insertDesc {x y : Str × Strokes} {l : List (Str × Strokes)} :
    y ∈ insertDesc x l ↔ y = x ∨ y ∈ l := by
  rw [(insertDesc_perm x l).mem_iff]
  simp

lemma pairwise_insertDesc {x : Str × Strokes} {l : List (Str × Strokes)}
    (h : l.Pairwise (fun a b => b.1.length ≤ a.1.length)) :
    (insertDesc x l).Pairwise (fun a b => b.1.length ≤ a.1.length) := by
  induction l with
  | nil => simp [insertDesc]
  | cons y ys ih =>
      rcases List.pairwise_cons.mp h with ⟨hy, hys⟩
      by_cases hxy : x.1.length ≥ y.1.length
      · simp only [insertDesc, if_pos hxy]
        refine List.pairwise_cons.mpr ⟨?_, h⟩
        intro z hz
        rcases List.mem_cons.mp hz with rfl | hz
        · exact hxy
        · exact le_trans (hy z hz) hxy
      · simp only [insertDesc, if_neg hxy]
        refine List.pairwise_cons.mpr ⟨?_, ih hys⟩
        intro z hz
        rcases mem_insertDesc.mp hz with rfl | hz
        · exact le_of_not_le hxy
        · exact hy z hz

lemma pairwise_sortDesc (l : List (Str × Strokes)) :
    (sortDesc l).Pairwise (fun a b => b.1.length ≤ a.1.length) := by
  induction l with
  | nil => simp [sortDesc]
  | cons x xs ih => exact pairwise_insertDesc ih

lemma filter_insertDesc (n : Nat) (x : Str × Strokes)
    (l : List (Str × Strokes)) :
    (insertDesc x l).filter (fun z => z.1.length = n) =
      if x.1.length = n then
        x :: l.filter (fun z => z.1.length = n)
      else l.filter (fun z => z.1.length = n) := by
  induction l with
  | nil =>
      by_cases hx : x.1.length = n <;> simp [insertDesc, List.filter, hx]
  | cons y ys ih =>
      by_cases hxy : x.1.length ≥ y.1.length
      · simp only [insertDesc, if_pos hxy]
        by_cases hx : x.1.length = n <;> simp [List.filter_cons, hx]
      · have hlt : x.1.length < y.1.length := lt_of_not_le hxy
        simp only [insertDesc, if_neg hxy]
        by_cases hx : x.1.length = n
        · have hy : ¬ y.1.length = n := by omega
          simp [List.filter_cons, hx, hy, ih]
        · simp [List.filter_cons, ih, hx]

lemma filter_sortDesc (n : Nat) (l : List (Str × Strokes)) :
    (sortDesc l).filter (fun z => z.1.length = n) =
      l.filter (fun z => z.1.length = n) := by
  induction l with
  | nil => simp [sortDesc]
  | cons x xs ih =>
      by_cases hx : x.1.length = n <;>
        simp [sortDesc, filter_insertDesc, List.filter_cons, hx, ih]

/-! ### The prefix matcher -/

lemma getPrefixChords_perm (t : Str) (c : Components) :
    List.Perm (getPrefixChords t c)
      ((allChordOutputs c).filter
        (fun x => !x.1.isEmpty && startsWithStr t x.1)) :=
  sortDesc_perm _

lemma mem_getPrefixChords {t : Str} {c : Components} {x : Str × Strokes} :
    x ∈ getPrefixChords t c ↔
      x ∈ allChordOutputs c ∧ x.1 ≠ [] ∧ x.1 <+: t := by
  rw [(getPrefixChords_perm t c).mem_iff, List.mem_filter]
  simp [startsWithStr_iff, List.isEmpty_iff]

lemma concatOutputs_nil : concatOutputs [] = [] := rfl

lemma concatOutputs_cons (p : Str × Strokes) (w : Spelling) :
    concatOutputs (p :: w) = p.1 ++ concatOutputs w := by
  simp [concatOutputs]

/-! ### The spelling search -/

lemma goChords_concat (target : Str) (f : Str → Memo → List Spelling × Memo)
    (hf : ∀ t m, GoodMemo m →
      (∀ w ∈ (f t m).1, concatOutputs w = t) ∧ GoodMemo (f t m).2) :
    ∀ (chords : List (Str × Strokes)), (∀ ch ∈ chords, ch.1 <+: target) →
      ∀ m, GoodMemo m →
        (∀ w ∈ (goChords target f chords m).1, concatOutputs w = target) ∧
          GoodMemo (goChords target f chords m).2 := by
  intro chords
  induction chords with
  | nil =>
      intro _ m hm
      exact ⟨fun w hw => by simp [goChords] at hw, hm⟩
  | cons ch chs ih =>
      intro hch m hm
      have h1 := hf (target.drop ch.1.length) m hm
      have h2 := ih (fun x hx => hch x (List.mem_cons_of_mem ch hx)) _ h1.2
      constructor
      · intro w hw
        simp only [goChords, List.mem_append] at hw
        rcases hw with hw | hw
        · obtain ⟨w2, hw2, rfl⟩ := List.mem_map.mp hw
          rw [concatOutputs_cons, h1.1 w2 hw2]
          exact prefix_append_drop (hch ch (List.mem_cons_self ch chs))
        · exact h2.1 w hw
      · exact h2.2

lemma findSpellingsF_concat (c : Components) :
    ∀ (fuel : Nat) (target : Str) (m : Memo), GoodMemo m →
      (∀ w ∈ (findSpellingsF fuel target c m).1, concatOutputs w = target) ∧
        GoodMemo (findSpellingsF fuel target c m).2 := by
  intro fuel
  induction fuel with
  | zero =>
      intro t m hm
      exact ⟨fun w hw => by simp [findSpellingsF] at hw, hm⟩
  | succ fuel ih =>
      intro target m hm
      by_cases ht : target = []
      · subst ht
        constructor
        · intro w hw
          simp [findSpellingsF] at hw
          subst hw
          rfl
        · have hr : (findSpellingsF (fuel + 1) [] c m).2 = memoInsert m [] [[]] := by
            simp [findSpellingsF]
          rw [hr]
          refine goodMemo_insert hm ?_
          intro w hw
          simp only [List.mem_singleton] at hw
          subst hw
          rfl
      · simp only [findSpellingsF, if_neg ht]
        cases hlk : memoLookup m target with
        | some ways =>
            exact ⟨fun w hw => hm target ways hlk w hw, hm⟩
        | none =>
            have hch : ∀ ch ∈ getPrefixChords target c, ch.1 <+: target :=
              fun ch h => (mem_getPrefixChords.mp h).2.2
            have hg := goChords_concat target
              (fun t m2 => findSpellingsF fuel t c m2)
              (fun t m2 hm2 => ih t m2 hm2)
              (getPrefixChords target c) hch m hm
            exact ⟨hg.1, goodMemo_insert hg.2 hg.1⟩

lemma goChords_congr (target : Str)
    (f g : Str → Memo → List Spelling × Memo) :
    ∀ (chords : List (Str × Strokes)),
      (∀ ch ∈ chords, ∀ m,
        f (target.drop ch.1.length) m = g (target.drop ch.1.length) m) →
      ∀ m, goChords target f chords m = goChords target g chords m := by
  intro chords
  induction chords with
  | nil => intro _ m; rfl
  | cons ch chs ih =>
      intro h m
      simp only [goChords]
      rw [h ch (List.mem_cons_self ch chs) m,
        ih (fun x hx m2 => h x (List.mem_cons_of_mem ch hx) m2)]

lemma findSpellingsF_fuel_eq (c : Components) :
    ∀ (fuel1 fuel2 : Nat) (target : Str) (m : Memo),
      target.length < fuel1 → target.length < fuel2 →
      findSpellingsF fuel1 target c m = findSpellingsF fuel2 target c m := by
  intro fuel1
  induction fuel1 with
  | zero => intro fuel2 target m h1 _; omega
  | succ f1 ih =>
      intro fuel2 target m h1 h2
      cases fuel2 with
      | zero => omega
      | succ f2 =>
          by_cases ht : target = []
          · subst ht; rfl
          · simp only [findSpellingsF, if_neg ht]
            cases memoLookup m target with
            | some ways => rfl
            | none =>
                have : goChords target (fun t m2 => findSpellingsF f1 t c m2)
                    (getPrefixChords target c) m =
                    goChords target (fun t m2 => findSpellingsF f2 t c m2)
                    (getPrefixChords target c) m := by
                  refine goChords_congr target _ _ _ ?_ m
                  intro ch hch m2
                  obtain ⟨_, hne, hpre⟩ := mem_getPrefixChords.mp hch
                  have hlt := drop_length_lt hne hpre
                  exact ih f2 (target.drop ch.1.length) m2
                    (by omega) (by omega)
                rw [this]

/-! ### The job loop -/

lemma doneTotals_append (a b : List Msg) :
    doneTotals (a ++ b) = doneTotals a ++ doneTotals b := by
  simp [doneTotals]

lemma doneTotals_chunks (l : List Spelling) :
    doneTotals (l.map chunkOf) = [] := by
  induction l with
  | nil => rfl
  | cons w ws ih => simp [doneTotals, chunkOf, ih]

lemma doneTotals_done (t : Nat) :
    doneTotals [Msg.resultDoneMsg t] = [t] := rfl

lemma takeBatch_spec (n : Nat) :
    ∀ (rem : List Spelling) (total k : Nat), total ≤ k →
      takeBatch n rem total (some k) =
        (rem.take (min n (min rem.length (k - total))),
          rem.drop (min n (min rem.length (k - total))),
          total + min n (min rem.length (k - total)),
          decide (rem.length < n ∧ rem.length < k - total)) := by
  induction n with
  | zero =>
      intro rem total k h
      simp [takeBatch]
  | succ n ih =>
      intro rem total k h
      by_cases hc : total ≥ k
      · have hcap : capReached (some k) total = true := by
          simp only [capReached, decide_eq_true_eq]
          omega
        simp only [takeBatch, hcap, if_true, Prod.mk.injEq]
        have hmin : min (n + 1) (min rem.length (k - total)) = 0 := by
          omega
        rw [hmin]
        refine ⟨by simp, by simp, by omega, ?_⟩
        rw [eq_comm, decide_eq_false_iff_not]
        omega
      · have hcap : capReached (some k) total = false := by
          simp [capReached]
          omega
        cases rem with
        | nil =>
            simp only [takeBatch, hcap, Bool.false_eq_true, if_false,
              List.length_nil, List.take_nil, List.drop_nil, Prod.mk.injEq]
            refine ⟨by simp, by simp, by omega, ?_⟩
            rw [eq_comm, decide_eq_true_eq]
            omega
        | cons w ws =>
            simp only [takeBatch, hcap, Bool.false_eq_true, if_false]
            rw [ih ws (total + 1) k (by omega)]
            have hmin : min (n + 1) (min (w :: ws).length (k - total)) =
                min n (min ws.length (k - (total + 1))) + 1 := by
              simp only [List.length_cons]
              omega
            rw [hmin]
            simp only [List.take_succ_cons, List.drop_succ_cons,
              List.length_cons, Prod.mk.injEq]
            refine ⟨by simp, by simp, by omega, ?_⟩
            rw [decide_eq_decide]
            omega

lemma doneTotals_runLoop (k : Nat) :
    ∀ (fuel : Nat) (rem : List Spelling) (total : Nat),
      rem.length < fuel → total ≤ k →
      doneTotals (runLoop fuel rem total (some k)) =
        [min (total + rem.length) k] := by
  intro fuel
  induction fuel with
  | zero => intro rem total h1 _; omega
  | succ fuel ih =>
      intro rem total h1 h2
      simp only [runLoop, takeBatch_spec YIELD_EVERY rem total k h2]
      set C := min YIELD_EVERY (min rem.length (k - total)) with hC
      have hCle : C ≤ rem.length := by
        simp only [hC, YIELD_EVERY]
        omega
      have hCk : total + C ≤ k := by
        simp only [hC, YIELD_EVERY]
        omega
      by_cases hgd : rem.length < YIELD_EVERY ∧ rem.length < k - total
      · have hgdb : decide (rem.length < YIELD_EVERY ∧ rem.length < k - total)
            = true := decide_eq_true hgd
        have hCr : C = rem.length := by
          simp only [hC, YIELD_EVERY] at *
          omega
        rw [hgdb]
        simp only [Bool.true_or, if_true, doneTotals_append,
          doneTotals_chunks, doneTotals_done, List.nil_append]
        refine congrArg (fun z => [z]) ?_
        omega
      · have hgdb : decide (rem.length < YIELD_EVERY ∧ rem.length < k - total)
            = false := decide_eq_false hgd
        rw [hgdb]
        simp only [Bool.false_or]
        by_cases hcap : capReached (some k) (total + C) = true
        · have hck : total + C = k := by
            simp only [capReached, decide_eq_true_eq] at hcap
            omega
          rw [hcap]
          simp only [if_true, doneTotals_append, doneTotals_chunks,
            doneTotals_done, List.nil_append]
          refine congrArg (fun z => [z]) ?_
          have hCor : C = YIELD_EVERY ∨ C = min rem.length (k - total) := by
            simp only [hC]
            omega
          simp only [hC, YIELD_EVERY] at *
          omega
        · have hcap2 : capReached (some k) (total + C) = false := by
            simp only [Bool.not_eq_true] at hcap
            exact hcap
          rw [hcap2]
          simp only [Bool.false_eq_true, if_false, doneTotals_append,
            doneTotals_chunks, List.nil_append]
          have hC1 : 1 ≤ C := by
            simp only [capReached, decide_eq_true_eq, Nat.not_le] at hcap
            simp only [hC, YIELD_EVERY] at *
            push_neg at hgd
            omega
          have hrec := ih (rem.drop C) (total + C)
            (by simp only [List.length_drop]; omega) hCk
          rw [hrec]
          simp only [List.length_drop]
          refine congrArg (fun z => [z]) ?_
          omega

/-! ### Claim theorems -/

/-- C1: for every target `t` and component tables `c`, every Spelling
yielded by the spelling search for `t` is a sequence of (output, Stroke)
pairs whose outputs, concatenated in order, equal `t` exactly. -/
theorem c1_spelling_concats_to_target (t : Str) (c : Components)
    (w : Spelling) (hw : w ∈ (findSpellings t c []).1) : concatOutputs w = t :=
  (findSpellingsF_concat c (t.length + 1) t [] goodMemo_nil).1 w hw

/-- C1 witness: the first spelling found for `"ta"` in the worked example
concatenates to `"ta"`. -/
theorem c1_spelling_concats_to_target_witness :
    concatOutputs [((['t', 'a'] : Str), Strokes.mk ['T'] ['A'] [] [])] =
      ['t', 'a'] :=
  c1_spelling_concats_to_target ['t', 'a'] exTAComponents _ (by decide)

/-- C2 counterexample: with the worked-example tables, the search for
`"ta"` does NOT yield only the single-chord spelling
`[("ta", ["T","A","",""])]` — the two-chord spelling
`[("t", ["T","","",""]), ("a", ["","A","",""])]` is also yielded. -/
theorem c2_counterexample :
    (findSpellings ['t', 'a'] exTAComponents []).1 ≠
      [[((['t', 'a'] : Str), Strokes.mk ['T'] ['A'] [] [])]] := by
  decide

/-- C2 amended: with component tables initials={"T":"t"}, vowels={"A":"a"},
finals={}, suffixes={}, the spelling search for target "ta" yields exactly
two Spellings, in order: first `[("ta", ["T","A","",""])]`, then
`[("t", ["T","","",""]), ("a", ["","A","",""])]`. -/
theorem c2_amended_two_spellings :
    (findSpellings ['t', 'a'] exTAComponents []).1 =
      [[(['t', 'a'], Strokes.mk ['T'] ['A'] [] [])],
        [(['t'], Strokes.mk ['T'] [] [] []),
          (['a'], Strokes.mk [] ['A'] [] [])]] := by
  decide

/-- C3: for every remaining target and component tables, the prefix
matcher returns exactly those enumerated chords whose output is non-empty
and a prefix of the remaining target (as a permutation of the filtered
enumeration, and membership-wise), sorted by output length descending,
with equal-length outputs keeping the chord enumerator's relative order
(the stable-sort property: each length class is the filtered enumeration's
length class, in order). -/
theorem c3_prefix_matcher_contract (t : Str) (c : Components) :
    List.Perm (getPrefixChords t c)
        ((allChordOutputs c).filter
          (fun x => !x.1.isEmpty && startsWithStr t x.1)) ∧
      (∀ x, x ∈ getPrefixChords t c ↔
        x ∈ allChordOutputs c ∧ x.1 ≠ [] ∧ x.1 <+: t) ∧
      (getPrefixChords t c).Pairwise (fun a b => b.1.length ≤ a.1.length) ∧
      (∀ n, (getPrefixChords t c).filter (fun x => x.1.length = n) =
        ((allChordOutputs c).filter
          (fun x => !x.1.isEmpty && startsWithStr t x.1)).filter
          (fun x => x.1.length = n)) :=
  ⟨getPrefixChords_perm t c, fun _ => mem_getPrefixChords,
    pairwise_sortDesc _, fun n => filter_sortDesc n _⟩

/-- C10: every chord the prefix matcher supplies has a non-empty output
that is a prefix of the target, so each recursive call operates on a
strictly shorter suffix; hence recursion depth `target.length + 1`
already computes the full (finite) list of yields — any larger fuel gives
the same finite result, i.e. the generator terminates. -/
theorem c10_search_terminates (t : Str) (c : Components) (m : Memo)
    (fuel : Nat) (hf : t.length + 1 ≤ fuel) :
    (∀ x ∈ getPrefixChords t c,
        x.1 ≠ [] ∧ (t.drop x.1.length).length < t.length) ∧
      findSpellingsF fuel t c m = findSpellings t c m := by
  constructor
  · intro x hx
    obtain ⟨_, hne, hpre⟩ := mem_getPrefixChords.mp hx
    exact ⟨hne, drop_length_lt hne hpre⟩
  · exact findSpellingsF_fuel_eq c fuel (t.length + 1) t m (by omega) (by omega)

/-- C10 witness: at fuel 5 the search for `"ta"` equals the fuel-3 run
that `findSpellings` performs. -/
theorem c10_search_terminates_witness :
    findSpellingsF 5 ['t', 'a'] exTAComponents [] =
      findSpellings ['t', 'a'] exTAComponents [] :=
  (c10_search_terminates ['t', 'a'] exTAComponents [] 5 (by decide)).2

/-- C4: for every component tables and any job whose `maxEntries` is
absent or positive, the spelling search on the empty target yields
exactly one Spelling — the empty sequence — memoizes it under the key
`""`, and the completed job for target `""` reports
`resultDone.total == 1`. -/
theorem c4_empty_target (c : Components) (data : ChordData)
    (maxEntries : Option Nat) (hm : maxEntries ≠ some 0) :
    (findSpellings [] c []).1 = [[]] ∧
      memoLookup (findSpellings [] c []).2 [] = some [[]] ∧
      doneTotals (runJobMsgs data [] maxEntries) = [1] := by
  refine ⟨rfl, rfl, ?_⟩
  cases maxEntries with
  | none => rfl
  | some k =>
      have hk : 1 ≤ k := by
        rcases Nat.eq_zero_or_pos k with h | h
        · exact absurd (by rw [h]) hm
        · exact h
      have hsp : (findSpellings [] (buildComponents data) []).1 = [[]] := rfl
      have h := doneTotals_runLoop k 2 [[]] 0 (by simp) (Nat.zero_le k)
      have hr : doneTotals (runJobMsgs data [] (some k)) =
          [min (0 + 1) k] := by
        simp only [runJobMsgs, hsp]
        exact h
      rw [hr]
      refine congrArg (fun z => [z]) ?_
      omega

/-- C4 witness: the worked-example tables with `maxEntries = 3`. -/
theorem c4_empty_target_witness :
    (findSpellings [] exTAComponents []).1 = [[]] ∧
      memoLookup (findSpellings [] exTAComponents []).2 [] = some [[]] ∧
      doneTotals (runJobMsgs exTAData [] (some 3)) = [1] :=
  c4_empty_target exTAComponents exTAData (some 3) (by decide)

/-- C5: for every job with `maxEntries = k` run to its terminal success
message, the reported total is at most `k`, and when the target has
strictly more than `k` Spellings the terminal total is exactly `k`. -/
theorem c5_cap_respected (data : ChordData) (target : Str) (k : Nat) :
    (∀ t2 ∈ doneTotals (runJobMsgs data target (some k)), t2 ≤ k) ∧
      (k < (findSpellings target (buildComponents data) []).1.length →
        doneTotals (runJobMsgs data target (some k)) = [k]) := by
  have h := doneTotals_runLoop k
    ((findSpellings target (buildComponents data) []).1.length + 1)
    (findSpellings target (buildComponents data) []).1 0
    (by omega) (Nat.zero_le k)
  have hr : doneTotals (runJobMsgs data target (some k)) =
      [min (0 + (findSpellings target (buildComponents data) []).1.length) k] :=
    h
  constructor
  · intro t2 ht2
    rw [hr] at ht2
    simp only [List.mem_singleton] at ht2
    omega
  · intro hk
    rw [hr]
    refine congrArg (fun z => [z]) ?_
    omega

/-- C5 witness: the worked example has 2 spellings for `"ta"`, and with
`maxEntries = 1` the terminal total is exactly 1. -/
theorem c5_cap_respected_witness :
    doneTotals (runJobMsgs exTAData ['t', 'a'] (some 1)) = [1] :=
  (c5_cap_respected exTAData ['t', 'a'] 1).2 (by decide)

/-- C6: in the supersession model, every message a job posts is posted at
a tick where its id is still current; hence if the job is superseded from
tick `T` onward (a newer request arrived), no chunk or terminal message
is posted at or after `T` — the guards on each emission and the check at
every batch boundary stop the job. -/
theorem c6_superseded_emits_nothing (fuel : Nat) (isCurrent : Nat → Bool)
    (tick : Nat) (rem : List Spelling) (total : Nat)
    (maxEntries : Option Nat) (T : Nat)
    (hT : ∀ t2, T ≤ t2 → isCurrent t2 = false) :
    ∀ p ∈ runLoopSup fuel isCurrent tick rem total maxEntries, p.1 < T := by
  induction fuel generalizing tick rem total with
  | zero => intro p hp; simp [runLoopSup] at hp
  | succ fuel ih =>
      intro p hp
      have htick : isCurrent tick = true → tick < T := by
        intro h
        by_contra h2
        have h3 := hT tick (by omega)
        rw [h] at h3
        exact Bool.noConfusion h3
      simp only [runLoopSup] at hp
      have hmsgs : ∀ q : Nat × Msg, q ∈ (if isCurrent tick then
          (((takeBatch YIELD_EVERY rem total maxEntries).1.map chunkOf).map
            (fun m => (tick, m))) else []) → q.1 < T := by
        intro q hq
        by_cases hcur : isCurrent tick = true
        · rw [if_pos hcur] at hq
          obtain ⟨m, _, rfl⟩ := List.mem_map.mp hq
          exact htick hcur
        · rw [if_neg hcur] at hq
          exact absurd hq (List.not_mem_nil q)
      by_cases hterm : ((takeBatch YIELD_EVERY rem total maxEntries).2.2.2 ||
          capReached maxEntries
            (takeBatch YIELD_EVERY rem total maxEntries).2.2.1) = true
      · rw [if_pos hterm] at hp
        rcases List.mem_append.mp hp with hp | hp
        · exact hmsgs p hp
        · by_cases hcur : isCurrent tick = true
          · rw [if_pos hcur] at hp
            simp only [List.mem_singleton] at hp
            subst hp
            exact htick hcur
          · rw [if_neg hcur] at hp
            exact absurd hp (List.not_mem_nil p)
      · rw [if_neg hterm] at hp
        by_cases hnext : isCurrent (tick + 1) = true
        · rw [if_pos hnext] at hp
          rcases List.mem_append.mp hp with hp | hp
          · exact hmsgs p hp
          · exact ih (tick + 1) _ _ p hp
        · rw [if_neg hnext] at hp
          exact hmsgs p hp

/-- C6 witness: a job with 6 pending spellings superseded at tick 1
posts its first-batch chunk at tick 0, before the supersession point. -/
theorem c6_superseded_emits_nothing_witness : (0 : Nat) < 1 :=
  c6_superseded_emits_nothing 3 (fun t2 => decide (t2 < 1)) 0
    (List.replicate 6 []) 0 none 1
    (fun t2 h2 => by
      rw [decide_eq_false_iff_not]
      omega)
    ((0 : Nat), chunkOf []) (by decide)

lemma normalizeSpec_has_empty (entries : List Entry) :
    ∃ v, ([], v) ∈ normalizeSpec entries := by
  by_cases h : entries.any (fun kv => kv.1 = []) = true
  · rw [normalizeSpec, if_pos h]
    obtain ⟨kv, hkv, he⟩ := List.any_eq_true.mp h
    have h1 : kv.1 = [] := by simpa using he
    refine ⟨kv.2, ?_⟩
    rw [← h1]
    exact hkv
  · rw [normalizeSpec, if_neg h]
    exact ⟨[], List.mem_cons_self _ _⟩

/-- C7 counterexample: when the input mapping maps the empty identifier
to a non-empty fragment (initials = `{"": "x"}`), the normalized list
does not contain the pair `("", "")`, contradicting the claim's "every
list contains the identifier \"\" mapped to the fragment \"\"". -/
theorem c7_counterexample :
    ¬ ((([] : Str), ([] : Str)) ∈ (buildComponents emptyKeyData).initials) := by
  decide

/-- C7 amended: each list produced by the component table builder is the
selected input mapping's entries in insertion order with `("", "")`
prepended when no entry with the empty identifier exists, so that after
normalization every list contains an entry whose identifier is `""`
(mapped to `""` whenever it was prepended). -/
theorem c7_normalization (data : ChordData) :
    (buildComponents data).initials = normalizeSpec (data.initials?.getD []) ∧
      (buildComponents data).vowels = normalizeSpec (data.vowels?.getD []) ∧
      (buildComponents data).finals = normalizeSpec (data.finals?.getD []) ∧
      (buildComponents data).suffixes =
        normalizeSpec ((suffixSource data).getD []) ∧
      (∃ v, ([], v) ∈ (buildComponents data).initials) ∧
      (∃ v, ([], v) ∈ (buildComponents data).vowels) ∧
      (∃ v, ([], v) ∈ (buildComponents data).finals) ∧
      (∃ v, ([], v) ∈ (buildComponents data).suffixes) :=
  ⟨rfl, rfl, rfl, rfl,
    normalizeSpec_has_empty _, normalizeSpec_has_empty _,
    normalizeSpec_has_empty _, normalizeSpec_has_empty _⟩

/-- C8: the memo replays identically — after a first computation of
suffix `s` (from any starting memo), the memo stores exactly the
sequence of Spellings just produced for `s`, and a second computation of
`s` from the resulting memo returns, element for element and in the same
order, that same sequence (and leaves the memo unchanged). -/
theorem c8_memo_replay (s : Str) (c : Components) (m : Memo) :
    memoLookup (findSpellings s c m).2 s = some (findSpellings s c m).1 ∧
      findSpellings s c (findSpellings s c m).2 = findSpellings s c m := by
  by_cases hs : s = []
  · subst hs
    have h1 : findSpellings [] c m = ([[]], memoInsert m [] [[]]) := rfl
    have h2 : memoLookup (memoInsert m [] [[]]) [] = some [[]] := by
      rw [memoLookup_memoInsert]
      simp
    constructor
    · rw [h1, h2]
    · rw [h1]
      have h3 : findSpellings [] c (memoInsert m [] [[]]) =
          ([[]], memoInsert (memoInsert m [] [[]]) [] [[]]) := rfl
      rw [h3, memoInsert_self h2]
  · cases hlk : memoLookup m s with
    | some ways =>
        have h1 : findSpellings s c m = (ways, m) := by
          simp only [findSpellings]
          cases hfl : s.length + 1 with
          | zero => omega
          | succ fuel =>
              simp only [findSpellingsF, if_neg hs, hlk]
        rw [h1]
        exact ⟨hlk, h1⟩
    | none =>
        have h1 : findSpellings s c m =
            ((goChords s (fun t m2 => findSpellingsF s.length t c m2)
                (getPrefixChords s c) m).1,
              memoInsert
                (goChords s (fun t m2 => findSpellingsF s.length t c m2)
                  (getPrefixChords s c) m).2 s
                (goChords s (fun t m2 => findSpellingsF s.length t c m2)
                  (getPrefixChords s c) m).1) := by
          simp only [findSpellings, findSpellingsF, if_neg hs, hlk]
        have h2 : memoLookup (findSpellings s c m).2 s =
            some (findSpellings s c m).1 := by
          rw [h1]
          simp [memoLookup_memoInsert]
        refine ⟨h2, ?_⟩
        cases hr : findSpellings s c m with
        | mk R1 R2 =>
            rw [hr] at h2
            simp only at h2
            show findSpellings s c R2 = (R1, R2)
            simp only [findSpellings, findSpellingsF, if_neg hs, h2]

/-- C9: the rendered chord representation concatenates the four
identifiers after stripping the final identifier's leading `"-"` marker
unless the chord has no initial and no vowel identifier (marker kept),
substitutes every `"|"` with the display-safe `"&"`, and renders an
entirely empty chord as the standalone placeholder symbol — i.e. the
code's `chordRepr` equals the spec-worded `chordReprSpec`. -/
theorem c9_chord_repr_matches_spec (st : Strokes) :
    chordRepr st = chordReprSpec st := by
  rcases st with ⟨i, v, f, s⟩
  simp only [chordRepr, chordReprSpec]
  cases f with
  | nil => simp [startsWithStr, stripLeadMarker]
  | cons cf f2 =>
      by_cases hcf : cf = '-'
      · subst hcf
        by_cases hiv : i.isEmpty && v.isEmpty
        · simp [startsWithStr, stripLeadMarker, hiv]
        · simp only [Bool.and_eq_true] at hiv
          cases hi : List.isEmpty i with
          | true =>
              cases hv : List.isEmpty v with
              | true => exact absurd ⟨hi, hv⟩ hiv
              | false => simp [startsWithStr, stripLeadMarker, hi, hv]
          | false => simp [startsWithStr, stripLeadMarker, hi]
      · have hsw : startsWithStr (cf :: f2) ['-'] = false := by
          simp [startsWithStr, hcf]
        simp [stripLeadMarker, hsw, hcf]

end Pinchord
